import Mathlib

/-!
A shallow embedding of ccache's platform-abstraction layer for filesystem
I/O (`src/util/file.cpp`) and its structural string helpers
(`src/util/string.hpp`), together with proofs about the embedded code.

Modelling choices:

* Paths are naturals (only path equality matters to the embedded code);
  file contents are lists of bytes (naturals); the filesystem is an option-valued
  map from paths to contents.
* POSIX `read`/`write` on regular files are modelled deterministically: a
  `read` of `n` bytes at offset `o` in a file of length `L` returns
  `min n (L - o)` bytes, and a short read happens only at end of file.
  This is the regular-file behaviour the C code relies on (its read loops
  treat a short read as end of file).
* Fault injection for the descriptor-level loops (`read_fd`, `write_fd`)
  is modelled by an explicit finite trace of syscall outcomes: each event
  is either an error (`errno` value) or a short success; once the trace
  is exhausted the remaining syscalls behave like fault-free regular-file
  I/O.  A short write of `n` bytes is clamped to the number of bytes
  actually requested, as the kernel clamps the return value of `write`.
* Fallible operations return `Option`/a success flag; the human-readable
  error strings built with `strerror`/`FMT` are not modelled (their text
  comes from the OS, not from this code).
-/

namespace Ccache

abbrev Byte := Nat

abbrev Path := Nat

/-- The filesystem: an option-valued map from paths to file contents. -/
abbrev FS := Path → Option (List Byte)

/-- Overwrite (or create) the file at `p` with content `d`. -/
def setFile (fs : FS) (p : Path) (d : List Byte) : FS :=
  fun q => if q = p then some d else fs q

/-- POSIX `unlink(p)`: remove the directory entry for `p`. -/
def unlink (fs : FS) (p : Path) : FS :=
  fun q => if q = p then none else fs q

/-- The `errno` values distinguished by the embedded code.  `eother`
stands for any hard error other than the ones the code names. -/
inductive Errno
  | eintr
  | eagain
  | eio
  | einval
  | enomem
  | eother
  deriving DecidableEq

/-- Outcome of one `read` syscall in a fault-injection trace.
`ok n` delivers the next `n + 1` pending bytes (clamped to what is left in
the file; `read` returns at least one byte unless it is at end of file),
`err e` makes the call fail with `errno = e`. -/
inductive ReadEv
  | ok (n : Nat)
  | err (e : Errno)
  deriving DecidableEq

/-- Outcome of one `write` syscall in a fault-injection trace.
`ok n` accepts `n` bytes (clamped to the number of bytes requested),
`err e` makes the call fail with `errno = e`. -/
inductive WriteEv
  | ok (n : Nat)
  | err (e : Errno)
  deriving DecidableEq

/-- The read side of `util::read_fd` (file.cpp:182-199): call `read` until
it returns 0 (end of file), retrying on `EINTR`, delivering each chunk to
the data receiver, and stopping with the errno of the first hard error.
The result is the total number of bytes delivered so far, paired with the
overall outcome.  `content` is the file being read, `offset` the current
file position; once `evs` is exhausted the remaining reads are fault-free,
so everything left in the file is delivered and then end of file is hit. -/
def read_fd_run (content : List Byte) : List ReadEv → Nat → Nat × Except Errno Unit
  | [], _ => (content.length, Except.ok ())
  | ReadEv.err e :: rest, offset =>
    if e = Errno.eintr then read_fd_run content rest offset
    else (offset, Except.error e)
  | ReadEv.ok n :: rest, offset =>
    if ((content.drop offset).take (n + 1)).length = 0 then (offset, Except.ok ())
    else read_fd_run content rest (offset + ((content.drop offset).take (n + 1)).length)

/-- The loop of `util::write_fd` (file.cpp:425-441): `while (written < size)`
call `write`; on `-1` with an errno other than `EAGAIN`/`EINTR` return that
error, otherwise add the returned count to `written`.  Returns the final
`written` together with the outcome; once `evs` is exhausted the remaining
writes are fault-free and complete the request. -/
def write_fd_run (size : Nat) : List WriteEv → Nat → Nat × Except Errno Unit
  | [], written =>
    if written < size then (size, Except.ok ()) else (written, Except.ok ())
  | ev :: rest, written =>
    if written < size then
      match ev with
      | WriteEv.err e =>
        if e = Errno.eagain ∨ e = Errno.eintr then write_fd_run size rest written
        else (written, Except.error e)
      | WriteEv.ok n => write_fd_run size rest (written + min n (size - written))
    else (written, Except.ok ())

/-- The growth loop of `read_file<T>` (file.cpp:243-258) in the
deterministic regular-file model: if the buffer is full, double it
(`resize` pads with zero bytes); read `result.size() - pos` bytes at the
current file position into the buffer at `pos`; stop at end of file
(`ret == 0`) or after a short read (`ret < max_read`).  Returns the final
buffer together with the final `pos`. -/
def readLoop (content : List Byte) (offset : Nat) (buf : List Byte) (pos : Nat) :
    List Byte × Nat :=
  let buf1 := if pos = buf.length then buf ++ List.replicate buf.length 0 else buf
  let chunk := (content.drop offset).take (buf1.length - pos)
  if h : chunk.length = 0 then
    (buf1, pos)
  else if chunk.length < buf1.length - pos then
    (buf1.take pos ++ chunk ++ buf1.drop (pos + chunk.length), pos + chunk.length)
  else
    readLoop content (offset + chunk.length)
      (buf1.take pos ++ chunk ++ buf1.drop (pos + chunk.length)) (pos + chunk.length)
termination_by content.length - offset
decreasing_by
  simp only [chunk, buf1, List.length_take, List.length_drop] at h ⊢
  omega

/-- The initial allocation size of `read_file<T>` (file.cpp:224):
`size_hint = (size_hint < 1024) ? 1024 : size_hint + 1`. -/
def read_file_init_size (expected : Nat) : Nat :=
  if expected < 1024 then 1024 else expected + 1

/-- The buffer `read_file<T>` initially allocates (`result.resize(size_hint)`
zero-fills), for a file with content `content` and hint `size_hint`: the
expected size comes from the hint, or from `stat` when the hint is 0. -/
def read_file_initial_buffer (content : List Byte) (size_hint : Nat) : List Byte :=
  List.replicate (read_file_init_size (if size_hint = 0 then content.length else size_hint)) 0

/-- The interesting part of `read_file<T>` (file.cpp:211-264) on an existing
file: run the growth loop from offset 0 over the initial buffer.  Returns
the final buffer and the final `pos` (number of bytes read). -/
def read_file_run (content : List Byte) (size_hint : Nat) : List Byte × Nat :=
  readLoop content 0 (read_file_initial_buffer content size_hint) 0

/-- Embedding of `read_file<T>(path, size_hint)` (file.cpp:211-264), binary
instantiation: `stat` (when `size_hint == 0`) and `open` fail iff the path
is absent; otherwise run the growth loop and truncate the buffer to the
number of bytes read (`result.resize(pos)`). -/
def read_file (fs : FS) (path : Path) (size_hint : Nat) : Option (List Byte) :=
  match fs path with
  | none => none
  | some content =>
    let r := read_file_run content size_hint
    some (r.1.take r.2)

/-- The read loop of `read_file_part<T>` (file.cpp:340-352) in the
deterministic regular-file model: read `count - bytes_read` bytes at the
current file position into the buffer at `bytes_read`; stop at end of file
(`ret == 0`) or once `bytes_read == count`. -/
def readPartLoop (content : List Byte) (offset : Nat) (buf : List Byte)
    (bytesRead count : Nat) : List Byte × Nat :=
  let chunk := (content.drop offset).take (count - bytesRead)
  if h : chunk.length = 0 then
    (buf, bytesRead)
  else if bytesRead + chunk.length = count then
    (buf.take bytesRead ++ chunk ++ buf.drop (bytesRead + chunk.length), count)
  else
    readPartLoop content (offset + chunk.length)
      (buf.take bytesRead ++ chunk ++ buf.drop (bytesRead + chunk.length))
      (bytesRead + chunk.length) count
termination_by content.length - offset
decreasing_by
  simp only [chunk, List.length_take, List.length_drop] at h ⊢
  omega

/-- Embedding of `read_file_part<T>(path, pos, count)` (file.cpp:317-361), binary
instantiation: return an empty result when `count == 0` (before opening
anything); otherwise open the path (fails iff absent), seek to `pos`
(`lseek` with `SEEK_SET` succeeds for any position on a regular file),
read into a `count`-byte zero-filled buffer, and truncate to the number of
bytes actually obtained (`result.resize(bytes_read)`). -/
def read_file_part (fs : FS) (path : Path) (pos count : Nat) : Option (List Byte) :=
  if count = 0 then some []
  else
    match fs path with
    | none => none
    | some content =>
      let r := readPartLoop content pos (List.replicate count 0) 0 count
      some (r.1.take r.2)

/-- Embedding of `util::rename(oldpath, newpath)` (file.cpp:372-389): POSIX `rename`
atomically replaces an existing `newpath`; it fails when `oldpath` does
not exist.  (On Windows the code requests the same overwrite semantics via
`MoveFileExA(..., MOVEFILE_REPLACE_EXISTING)`.) -/
def rename (fs : FS) (oldpath newpath : Path) : FS × Bool :=
  match fs oldpath with
  | none => (fs, false)
  | some content =>
    (fun q => if q = newpath then some content else if q = oldpath then none else fs q, true)

/-- Modelled from the spec: `TemporaryFile` (declared outside `src/`) owns a
descriptor plus its path, "created adjacent to a target path, guaranteed
removed on failure before the handle is destroyed"; on a copy failure "the
temporary file is discarded".  Discarding is removal of the temp path. -/
def discardTmpFile (fs : FS) (tmp : Path) : FS :=
  unlink fs tmp

/-- Embedding of `util::copy_file(src, dest, via_tmp_file)` (file.cpp:63-106): open `src`
for reading (fails iff absent); unconditionally `unlink(dest)`; create the
destination descriptor (a `TemporaryFile` beside `dest` when
`via_tmp_file == ViaTmpFile::yes`, else `open(dest, O_CREAT|O_TRUNC)`);
stream with `read_fd`, writing each delivered chunk with `write_fd`; on
read failure return the error (the temporary file is discarded); on
success close both descriptors and, in the atomic mode, `rename` the
temporary file onto `dest`.  `tmp` is the path the `TemporaryFile` picks
beside `dest`, `evs` the fault-injection trace for the source reads. -/
def copy_file (fs : FS) (src dest tmp : Path) (viaTmpFile : Bool)
    (evs : List ReadEv) : FS × Bool :=
  match fs src with
  | none => (fs, false)
  | some content =>
    let fs1 := unlink fs dest
    if viaTmpFile then
      let fs2 := setFile fs1 tmp []
      let r := read_fd_run content evs 0
      let fs3 := setFile fs2 tmp (content.take r.1)
      match r.2 with
      | Except.error _ => (discardTmpFile fs3 tmp, false)
      | Except.ok _ =>
        let r2 := rename fs3 tmp dest
        (r2.1, r2.2)
    else
      let fs2 := setFile fs1 dest []
      let r := read_fd_run content evs 0
      let fs3 := setFile fs2 dest (content.take r.1)
      match r.2 with
      | Except.error _ => (fs3, false)
      | Except.ok _ => (fs3, true)

/-- The binary overload of `util::write_file(path, data, in_place)`
(file.cpp:456-469): when `in_place == InPlace::no`, `unlink(path)` first;
`open(path, O_WRONLY|O_CREAT|O_TRUNC|O_BINARY)` creates/truncates the
file; then `write_fd(*fd, data.data(), data.size())` with fault-injection
trace `evs`.  The file ends up holding the bytes actually written. -/
def write_file (fs : FS) (path : Path) (data : List Byte) (inPlace : Bool)
    (evs : List WriteEv) : FS × Bool :=
  let fs1 := if inPlace then fs else unlink fs path
  let fs2 := setFile fs1 path []
  let r := write_fd_run data.length evs 0
  (setFile fs2 path (data.take r.1),
    match r.2 with
    | Except.ok _ => true
    | Except.error _ => false)

/-- An open file descriptor on a regular file: the file's bytes and the
descriptor's current read/write position. -/
structure FdState where
  content : List Byte
  pos : Nat

/-- Embedding of `util::fallocate(fd, new_size)` (file.cpp:128-167), fallback (lseek)
path, in the no-failure model: `saved_pos = lseek(fd, 0, SEEK_END)`
repositions to end of file and yields the end offset; `old_size =
lseek(fd, 0, SEEK_END)` does the same; if `old_size >= new_size` restore
`saved_pos` and return success; otherwise write `new_size - old_size` zero
bytes at the current position (end of file) with `write_fd`, then restore
`saved_pos`. -/
def fallocate (st : FdState) (new_size : Nat) : FdState × Bool :=
  let saved_pos := st.content.length
  let st1 : FdState := ⟨st.content, st.content.length⟩
  let old_size := st1.content.length
  let st2 : FdState := ⟨st1.content, st1.content.length⟩
  if new_size ≤ old_size then
    (⟨st2.content, saved_pos⟩, true)
  else
    let bytes_to_write := new_size - old_size
    let st3 : FdState :=
      ⟨st2.content.take st2.pos ++ List.replicate bytes_to_write 0 ++
        st2.content.drop (st2.pos + bytes_to_write), st2.pos + bytes_to_write⟩
    (⟨st3.content, saved_pos⟩, true)

/-- Embedding of `util::ends_with(string, suffix)` (string.hpp:161-166):
`string.length() >= suffix.length() &&
string.substr(string.length() - suffix.length()) == suffix`. -/
def ends_with (s suffix : List Char) : Bool :=
  decide (suffix.length ≤ s.length) && decide (s.drop (s.length - suffix.length) = suffix)

/-- Embedding of `std::strncmp(a, b, n) == 0` where `a` points at memory holding the
chars of list `a` and `b` at (at least) `n` chars given by list `b`:
compare at most `n` characters, stopping at the first difference or at a
null character.  The catch-all case is an out-of-bounds read (undefined in
C); it is unreachable for the arguments `starts_with_cstr` passes. -/
def strncmp_eq_zero : List Char → List Char → Nat → Bool
  | _, _, 0 => true
  | a :: as, b :: bs, n + 1 =>
    if a = b then
      if a = Char.ofNat 0 then true else strncmp_eq_zero as bs n
    else false
  | _, _, _ + 1 => false

/-- The `const char*` overload of `util::starts_with(string, prefix)`
(string.hpp:189-195): `std::strncmp(string, prefix.data(),
prefix.length()) == 0`.  The C string `s` (which holds no null character)
is laid out in memory as its chars followed by the null terminator; `pfx`
is the string_view's character sequence. -/
def starts_with_cstr (s pfx : List Char) : Bool :=
  strncmp_eq_zero (s ++ [Char.ofNat 0]) pfx pfx.length

/-- The `std::string_view` overload of `util::starts_with(string, prefix)`
(string.hpp:197-201): `string.substr(0, prefix.size()) == prefix`. -/
def starts_with_sv (s pfx : List Char) : Bool :=
  decide (s.take pfx.length = pfx)

/-- A concrete filesystem with file 0 = `[1]` and file 1 = `[2]`,
used by witnesses. -/
def fsAB : FS :=
  fun p => if p = 0 then some [1] else if p = 1 then some [2] else none

/-- A concrete filesystem with a single three-byte file at path 0,
used by witnesses. -/
def fsOne : FS :=
  fun p => if p = 0 then some [1, 2, 3] else none

/-- A concrete filesystem with a single ten-byte file at path 0,
used by witnesses. -/
def fsTen : FS :=
  fun p => if p = 0 then some [0, 1, 2, 3, 4, 5, 6, 7, 8, 9] else none

/-- Writing a `read` chunk into `buf1` at `pos` (the C code's
`read(fd, &result[pos], max_read)`) keeps the buffer length, and the first
`pos + chunk.length` bytes become the old first `pos` bytes followed by
the chunk. -/
theorem write_chunk_facts (buf1 chunk : List Byte) (pos : Nat)
    (hpos : pos ≤ buf1.length) (hpc : pos + chunk.length ≤ buf1.length) :
    (buf1.take pos ++ chunk ++ buf1.drop (pos + chunk.length)).length = buf1.length ∧
    (buf1.take pos ++ chunk ++ buf1.drop (pos + chunk.length)).take
        (pos + chunk.length) =
      buf1.take pos ++ chunk := by
  have hx : (buf1.take pos).length = pos := by
    rw [List.length_take, min_eq_left hpos]
  have hxy : (buf1.take pos ++ chunk).length = pos + chunk.length := by
    rw [List.length_append, hx]
  constructor
  · rw [List.length_append, hxy, List.length_drop]
    omega
  · rw [List.take_append_of_le_length (le_of_eq hxy.symm)]
    rw [← hxy, List.take_length]

/-- Full correctness of `read_file`'s growth loop in the deterministic
regular-file model: from a consistent state (`pos` bytes already read and
stored, file position equal to `pos`, room left in the buffer) the loop
reads the rest of the file, the final `pos` is the file length, the final
buffer starts with the whole file content, and the buffer has grown only
by doubling. -/
theorem readLoop_spec (content : List Byte) :
    ∀ (n offset : Nat) (buf : List Byte) (pos : Nat),
      content.length - offset = n → pos = offset → pos ≤ content.length →
      pos ≤ buf.length → 0 < buf.length → buf.take pos = content.take pos →
      (readLoop content offset buf pos).2 = content.length ∧
      (readLoop content offset buf pos).1.take content.length = content ∧
      ∃ k : Nat, (readLoop content offset buf pos).1.length = buf.length * 2 ^ k := by
  intro n
  induction n using Nat.strong_induction_on with
  | _ n ih =>
    intro offset buf pos hn hpo hpc hpb hb0 htake
    rw [readLoop]
    set buf1 := if pos = buf.length then buf ++ List.replicate buf.length 0 else buf
      with hbuf1
    have hlt : pos < buf1.length := by
      by_cases hdb : pos = buf.length
      · rw [hbuf1, if_pos hdb, List.length_append, List.length_replicate]
        omega
      · rw [hbuf1, if_neg hdb]
        omega
    have htake1 : buf1.take pos = buf.take pos := by
      by_cases hdb : pos = buf.length
      · rw [hbuf1, if_pos hdb]
        exact List.take_append_of_le_length hpb
      · rw [hbuf1, if_neg hdb]
    obtain ⟨j, hj⟩ : ∃ j : Nat, buf1.length = buf.length * 2 ^ j := by
      by_cases hdb : pos = buf.length
      · refine ⟨1, ?_⟩
        rw [hbuf1, if_pos hdb, List.length_append, List.length_replicate, pow_one]
        ring
      · refine ⟨0, ?_⟩
        rw [hbuf1, if_neg hdb, pow_zero, Nat.mul_one]
    set chunk := (content.drop offset).take (buf1.length - pos) with hchunk
    have hclen : chunk.length = min (buf1.length - pos) (content.length - offset) := by
      rw [hchunk, List.length_take, List.length_drop]
    by_cases hc0 : chunk.length = 0
    · rw [dif_pos hc0]
      have hR0 : content.length - offset = 0 := by
        rcases Nat.le_total (buf1.length - pos) (content.length - offset) with hmm | hmm
        · rw [min_eq_left hmm] at hclen
          omega
        · rw [min_eq_right hmm] at hclen
          omega
      have hpos_eq : pos = content.length := by omega
      refine ⟨hpos_eq, ?_, ⟨j, hj⟩⟩
      show buf1.take content.length = content
      rw [← hpos_eq, htake1, htake, hpos_eq, List.take_length]
    · have hcpos : 0 < chunk.length := Nat.pos_of_ne_zero hc0
      have hA : chunk.length ≤ buf1.length - pos := by
        rw [hclen]
        exact min_le_left _ _
      have hB : chunk.length ≤ content.length - offset := by
        rw [hclen]
        exact min_le_right _ _
      have hofflt : offset < content.length := by omega
      obtain ⟨hblen2, hbtake2⟩ :=
        write_chunk_facts buf1 chunk pos (le_of_lt hlt) (by omega)
      have hchunkeq : (content.drop pos).take chunk.length = chunk := by
        rw [hpo, hchunk, List.length_take, List.length_drop]
        rcases Nat.le_total (buf1.length - pos) (content.length - offset) with hmm | hmm
        · rw [min_eq_left hmm]
        · rw [min_eq_right hmm, List.take_of_length_le (by rw [List.length_drop]),
            List.take_of_length_le (by rw [List.length_drop]; exact hmm)]
      have htake2 : (buf1.take pos ++ chunk ++ buf1.drop (pos + chunk.length)).take
          (pos + chunk.length) = content.take (pos + chunk.length) := by
        rw [hbtake2, List.take_add, htake1, htake, hchunkeq]
      by_cases hsh : chunk.length < buf1.length - pos
      · rw [dif_neg hc0, if_pos hsh]
        have hceqR : chunk.length = content.length - offset := by
          rcases Nat.le_total (buf1.length - pos) (content.length - offset) with hmm | hmm
          · rw [min_eq_left hmm] at hclen
            omega
          · rw [min_eq_right hmm] at hclen
            omega
        have hpc2 : pos + chunk.length = content.length := by omega
        refine ⟨hpc2, ?_, ⟨j, ?_⟩⟩
        · show (buf1.take pos ++ chunk ++ buf1.drop (pos + chunk.length)).take
              content.length = content
          rw [← hpc2, htake2, hpc2, List.take_length]
        · show (buf1.take pos ++ chunk ++ buf1.drop (pos + chunk.length)).length =
            buf.length * 2 ^ j
          rw [hblen2, hj]
      · rw [dif_neg hc0, if_neg hsh]
        have hceqM : chunk.length = buf1.length - pos := by omega
        have hrec := ih (content.length - (offset + chunk.length)) (by omega)
          (offset + chunk.length)
          (buf1.take pos ++ chunk ++ buf1.drop (pos + chunk.length))
          (pos + chunk.length)
          rfl (by omega) (by omega) (by rw [hblen2]; omega) (by rw [hblen2]; omega)
          htake2
        obtain ⟨ih1, ih2, k, ih3⟩ := hrec
        refine ⟨ih1, ih2, ⟨j + k, ?_⟩⟩
        rw [ih3, hblen2, hj, pow_add]
        ring

/-- Full correctness of `read_file_part`'s loop in the deterministic
regular-file model: having seeked to `pos0` and already read `br` bytes,
the loop ends with `min count (available)` bytes read, and those bytes are
the file's bytes starting at `pos0`. -/
theorem readPartLoop_spec (content : List Byte) :
    ∀ (n pos0 br : Nat) (buf : List Byte) (count : Nat),
      content.length - (pos0 + br) = n →
      br ≤ count → buf.length = count →
      buf.take br = (content.drop pos0).take br →
      br ≤ content.length - pos0 →
      (readPartLoop content (pos0 + br) buf br count).2 =
        min count (content.length - pos0) ∧
      (readPartLoop content (pos0 + br) buf br count).1.take
          (readPartLoop content (pos0 + br) buf br count).2 =
        (content.drop pos0).take count := by
  intro n
  induction n using Nat.strong_induction_on with
  | _ n ih =>
    intro pos0 br buf count hn hbc hbl htake hbD
    rw [readPartLoop]
    set chunk := (content.drop (pos0 + br)).take (count - br) with hchunk
    have hclen : chunk.length = min (count - br) (content.length - (pos0 + br)) := by
      rw [hchunk, List.length_take, List.length_drop]
    have hDsub : content.length - (pos0 + br) = content.length - pos0 - br := by
      omega
    by_cases hc0 : chunk.length = 0
    · rw [dif_pos hc0]
      have hor : count - br = 0 ∨ content.length - (pos0 + br) = 0 := by
        rcases Nat.le_total (count - br) (content.length - (pos0 + br)) with hmm | hmm
        · rw [min_eq_left hmm] at hclen
          omega
        · rw [min_eq_right hmm] at hclen
          omega
      have hbr_eq : br = min count (content.length - pos0) := by
        rcases hor with hor | hor
        · rcases Nat.le_total count (content.length - pos0) with hmm | hmm
          · rw [min_eq_left hmm]
            omega
          · rw [min_eq_right hmm]
            omega
        · rcases Nat.le_total count (content.length - pos0) with hmm | hmm
          · rw [min_eq_left hmm]
            omega
          · rw [min_eq_right hmm]
            omega
      refine ⟨hbr_eq, ?_⟩
      show buf.take br = (content.drop pos0).take count
      rcases hor with hor | hor
      · have hbc2 : br = count := by omega
        rw [htake, hbc2]
      · rw [htake, List.take_of_length_le (by rw [List.length_drop]; omega),
          List.take_of_length_le (by rw [List.length_drop]; omega)]
    · have hcpos : 0 < chunk.length := Nat.pos_of_ne_zero hc0
      have hA : chunk.length ≤ count - br := by
        rw [hclen]
        exact min_le_left _ _
      have hB : chunk.length ≤ content.length - (pos0 + br) := by
        rw [hclen]
        exact min_le_right _ _
      have hplt : pos0 + br < content.length := by omega
      obtain ⟨hblen2, hbtake2⟩ :=
        write_chunk_facts buf chunk br (by omega) (by omega)
      have hchunkeq : (content.drop (pos0 + br)).take chunk.length = chunk := by
        rw [hchunk, List.length_take, List.length_drop]
        rcases Nat.le_total (count - br) (content.length - (pos0 + br)) with hmm | hmm
        · rw [min_eq_left hmm]
        · rw [min_eq_right hmm, List.take_of_length_le (by rw [List.length_drop]),
            List.take_of_length_le (by rw [List.length_drop]; exact hmm)]
      have htake2 : (buf.take br ++ chunk ++ buf.drop (br + chunk.length)).take
          (br + chunk.length) = (content.drop pos0).take (br + chunk.length) := by
        rw [hbtake2, List.take_add, htake, List.drop_drop, hchunkeq]
      by_cases hbreak : br + chunk.length = count
      · rw [dif_neg hc0, if_pos hbreak]
        have hcount_le : count ≤ content.length - pos0 := by omega
        refine ⟨?_, ?_⟩
        · show count = min count (content.length - pos0)
          rw [min_eq_left hcount_le]
        · show (buf.take br ++ chunk ++ buf.drop (br + chunk.length)).take count =
            (content.drop pos0).take count
          rw [← hbreak]
          exact htake2
      · rw [dif_neg hc0, if_neg hbreak]
        have hrec := ih (content.length - (pos0 + (br + chunk.length))) (by omega)
          pos0 (br + chunk.length)
          (buf.take br ++ chunk ++ buf.drop (br + chunk.length)) count
          rfl (by omega) (by rw [hblen2]; exact hbl) htake2 (by omega)
        rw [Nat.add_assoc]
        exact hrec

/-- Claim C9: `ends_with(s, t)` returns true if and only if `t`'s length
does not exceed `s`'s length and the last `|t|` characters of `s` equal
`t`, i.e. iff `t` is a suffix of `s`. -/
theorem ends_with_iff_isSuffix (s t : List Char) : ends_with s t = true ↔ t <:+ s := by
  simp only [ends_with, Bool.and_eq_true, decide_eq_true_eq]
  constructor
  · rintro ⟨-, hdrop⟩
    exact List.suffix_iff_eq_drop.mpr hdrop.symm
  · intro h
    exact ⟨h.length_le, (List.suffix_iff_eq_drop.mp h).symm⟩

/-- Claim C10 counterexample: for the C string `"a"` and a string_view
holding the two characters `'a'` and NUL, the `strncmp`-based overload
answers true (it stops at the terminator) while the string_view overload
answers false, so the two overloads do not agree on every view. -/
theorem starts_with_overloads_disagree_cex :
    starts_with_cstr ['a'] ['a', Char.ofNat 0] ≠
      starts_with_sv ['a'] ['a', Char.ofNat 0] := by
  decide

/-- Claim C10 (amended): for every NUL-terminated C string `s` and every
view `pfx` that contains no NUL character, the two `starts_with` overloads
agree. -/
theorem starts_with_cstr_eq_starts_with_sv (pfx : List Char) :
    ∀ s : List Char, Char.ofNat 0 ∉ s → Char.ofNat 0 ∉ pfx →
      starts_with_cstr s pfx = starts_with_sv s pfx := by
  induction pfx with
  | nil =>
    intro s _ _
    simp [starts_with_cstr, starts_with_sv, strncmp_eq_zero]
  | cons b bs ih =>
    intro s hs hp
    have hb : ¬(Char.ofNat 0 = b) := fun hh => hp (hh ▸ List.mem_cons_self b bs)
    have hbs : Char.ofNat 0 ∉ bs := fun hh => hp (List.mem_cons_of_mem b hh)
    cases s with
    | nil =>
      simp [starts_with_cstr, starts_with_sv, strncmp_eq_zero, hb]
    | cons a as =>
      have has : Char.ofNat 0 ∉ as := fun hh => hs (List.mem_cons_of_mem a hh)
      by_cases hab : a = b
      · subst hab
        have ha0 : ¬(a = Char.ofNat 0) := fun hh => hb hh.symm
        have hrec := ih as has hbs
        have hL : starts_with_cstr (a :: as) (a :: bs) = starts_with_cstr as bs := by
          simp [starts_with_cstr, strncmp_eq_zero, ha0]
        have hR : starts_with_sv (a :: as) (a :: bs) = starts_with_sv as bs := by
          simp [starts_with_sv, List.take_succ_cons]
        rw [hL, hR]
        exact hrec
      · simp [starts_with_cstr, starts_with_sv, strncmp_eq_zero, hab, List.take_succ_cons]

/-- Claim C10 amended witness: the overloads agree on a concrete
NUL-free input. -/
theorem starts_with_cstr_eq_starts_with_sv_witness :
    starts_with_cstr ['a', 'b'] ['a'] = starts_with_sv ['a', 'b'] ['a'] :=
  starts_with_cstr_eq_starts_with_sv ['a'] ['a', 'b'] (by decide) (by decide)

/-- The `write_fd` loop invariant: once `written ≤ size`, a successful run
reports exactly `size` bytes written. -/
theorem write_fd_run_ok_eq (size : Nat) :
    ∀ (evs : List WriteEv) (written : Nat), written ≤ size →
      ∀ w : Nat, write_fd_run size evs written = (w, Except.ok ()) → w = size := by
  intro evs
  induction evs with
  | nil =>
    intro written hle w h
    simp only [write_fd_run] at h
    split at h <;> (simp only [Prod.mk.injEq] at h; omega)
  | cons ev rest ih =>
    intro written hle w h
    cases ev with
    | err e =>
      simp only [write_fd_run] at h
      by_cases hlt : written < size
      · rw [if_pos hlt] at h
        by_cases htr : e = Errno.eagain ∨ e = Errno.eintr
        · rw [if_pos htr] at h
          exact ih written hle w h
        · rw [if_neg htr] at h
          simp at h
      · rw [if_neg hlt] at h
        simp only [Prod.mk.injEq] at h
        omega
    | ok n =>
      simp only [write_fd_run] at h
      by_cases hlt : written < size
      · rw [if_pos hlt] at h
        exact ih (written + min n (size - written)) (by omega) w h
      · rw [if_neg hlt] at h
        simp only [Prod.mk.injEq] at h
        omega

/-- The `write_fd` loop surfaces only hard errors, and only ones that occur
in its trace. -/
theorem write_fd_run_error_mem (size : Nat) :
    ∀ (evs : List WriteEv) (written w : Nat) (e : Errno),
      write_fd_run size evs written = (w, Except.error e) →
      ¬(e = Errno.eagain ∨ e = Errno.eintr) ∧ WriteEv.err e ∈ evs := by
  intro evs
  induction evs with
  | nil =>
    intro written w e h
    simp only [write_fd_run] at h
    split at h <;> simp at h
  | cons ev rest ih =>
    intro written w e h
    cases ev with
    | err e2 =>
      simp only [write_fd_run] at h
      by_cases hlt : written < size
      · rw [if_pos hlt] at h
        by_cases htr : e2 = Errno.eagain ∨ e2 = Errno.eintr
        · rw [if_pos htr] at h
          obtain ⟨h1, h2⟩ := ih written w e h
          exact ⟨h1, List.mem_cons_of_mem _ h2⟩
        · rw [if_neg htr] at h
          simp only [Prod.mk.injEq, Except.error.injEq] at h
          obtain ⟨-, h2⟩ := h
          subst h2
          exact ⟨htr, List.mem_cons_self _ _⟩
      · rw [if_neg hlt] at h
        simp at h
    | ok n =>
      simp only [write_fd_run] at h
      by_cases hlt : written < size
      · rw [if_pos hlt] at h
        obtain ⟨h1, h2⟩ := ih (written + min n (size - written)) w e h
        exact ⟨h1, List.mem_cons_of_mem _ h2⟩
      · rw [if_neg hlt] at h
        simp at h

/-- Claim C7: `write_fd` writes exactly `size` bytes on success, looping
over short writes; a surfaced error is never `EINTR`/`EAGAIN` and is an
error the underlying `write` actually reported; a hard error surfaces
immediately, while a transient error merely makes the loop retry. -/
theorem write_fd_exact_and_transient_retry (evs : List WriteEv) (size : Nat) :
    (∀ w : Nat, write_fd_run size evs 0 = (w, Except.ok ()) → w = size) ∧
    (∀ (w : Nat) (e : Errno), write_fd_run size evs 0 = (w, Except.error e) →
      e ≠ Errno.eagain ∧ e ≠ Errno.eintr ∧ WriteEv.err e ∈ evs) ∧
    (∀ (written : Nat) (e : Errno) (rest : List WriteEv),
      written < size → e ≠ Errno.eagain → e ≠ Errno.eintr →
      write_fd_run size (WriteEv.err e :: rest) written = (written, Except.error e)) ∧
    (∀ (written : Nat) (e : Errno) (rest : List WriteEv),
      written < size → (e = Errno.eagain ∨ e = Errno.eintr) →
      write_fd_run size (WriteEv.err e :: rest) written = write_fd_run size rest written) := by
  refine ⟨fun w h => write_fd_run_ok_eq size evs 0 (Nat.zero_le _) w h, ?_, ?_, ?_⟩
  · intro w e h
    obtain ⟨hne, hmem⟩ := write_fd_run_error_mem size evs 0 w e h
    exact ⟨fun hh => hne (Or.inl hh), fun hh => hne (Or.inr hh), hmem⟩
  · intro written e rest hlt h1 h2
    simp only [write_fd_run, if_pos hlt]
    rw [if_neg (by tauto)]
  · intro written e rest hlt htr
    simp only [write_fd_run, if_pos hlt]
    rw [if_pos htr]

/-- Claim C7 witness: a run with a transient error and short writes
completes with exactly 5 bytes written; a run hitting `EIO` surfaces it. -/
theorem write_fd_exact_and_transient_retry_witness :
    (5 : Nat) = 5 ∧
      (Errno.eio ≠ Errno.eagain ∧ Errno.eio ≠ Errno.eintr ∧
        WriteEv.err Errno.eio ∈ [WriteEv.ok 1, WriteEv.err Errno.eio]) :=
  ⟨(write_fd_exact_and_transient_retry
      [WriteEv.err Errno.eintr, WriteEv.ok 2, WriteEv.ok 9] 5).1 5 rfl,
   (write_fd_exact_and_transient_retry
      [WriteEv.ok 1, WriteEv.err Errno.eio] 5).2.1 1 Errno.eio rfl⟩

/-- Claim C5: `rename(oldpath, newpath)` overwrites an existing `newpath`:
after renaming `a` onto an existing `b`, reading `b` yields `a`'s prior
content, `a` no longer exists, and the call succeeds. -/
theorem rename_overwrites_existing (fs : FS) (a b : Path) (da db : List Byte)
    (hne : a ≠ b) (ha : fs a = some da) (hb : fs b = some db) :
    (rename fs a b).2 = true ∧ (rename fs a b).1 b = some da ∧
      (rename fs a b).1 a = none := by
  refine ⟨?_, ?_, ?_⟩
  · simp [rename, ha]
  · simp [rename, ha]
  · simp [rename, ha, hne]

/-- Claim C5 witness: renaming file 0 (content `[1]`) onto existing file 1
(content `[2]`) succeeds, file 1 then reads `[1]` and file 0 is gone. -/
theorem rename_overwrites_existing_witness :
    (rename fsAB 0 1).2 = true ∧ (rename fsAB 0 1).1 1 = some [1] ∧
      (rename fsAB 0 1).1 0 = none :=
  rename_overwrites_existing fsAB 0 1 [1] [2] (by decide) rfl rfl

/-- Claim C3 (code-bug evidence): `fallocate` saves the position with
`lseek(fd, 0, SEEK_END)` instead of `SEEK_CUR`, so on every exit it
restores the descriptor position to the file's *old size*, not to the
position held before the call.  In particular, on a 100-byte file with
position 0 and `new_size = 50` (the claimed no-op case) the call succeeds
and leaves the content unchanged but moves the position to 100. -/
theorem fallocate_position_equals_old_size :
    (∀ (st : FdState) (new_size : Nat),
      (fallocate st new_size).1.pos = st.content.length) ∧
    (fallocate ⟨List.replicate 100 7, 0⟩ 50).2 = true ∧
    (fallocate ⟨List.replicate 100 7, 0⟩ 50).1.content = List.replicate 100 7 ∧
    (fallocate ⟨List.replicate 100 7, 0⟩ 50).1.pos = 100 ∧
    (⟨List.replicate 100 7, 0⟩ : FdState).pos = 0 := by
  refine ⟨?_, rfl, ?_, ?_, rfl⟩
  · intro st ns
    simp only [fallocate]
    split <;> rfl
  · rfl
  · rw [show (fallocate ⟨List.replicate 100 7, 0⟩ 50).1.pos =
        (List.replicate (100 : Nat) (7 : Byte)).length from rfl]
    rw [List.length_replicate]

/-- Claim C8: `read_file_part(path, pos, 0)` returns an empty result with
no error, for every filesystem (in particular when the path does not even
exist, which shows the file is not opened) and every position (which is
never seeked to). -/
theorem read_file_part_zero_count_no_open (fs : FS) (path : Path) (pos : Nat) :
    read_file_part fs path pos 0 = some [] :=
  rfl

/-- Reading an existing file with `read_file` returns exactly the file's content,
whatever the size hint. -/
theorem read_file_reads_whole_file (fs : FS) (p : Path) (content : List Byte)
    (hint : Nat) (h : fs p = some content) : read_file fs p hint = some content := by
  have hinit : 0 < (read_file_initial_buffer content hint).length := by
    rw [read_file_initial_buffer, List.length_replicate, read_file_init_size]
    split <;> split <;> omega
  obtain ⟨h1, h2, -⟩ := readLoop_spec content content.length 0
    (read_file_initial_buffer content hint) 0 rfl rfl (Nat.zero_le _) (Nat.zero_le _)
    hinit (by rw [List.take_zero, List.take_zero])
  rw [read_file, h]
  show some ((read_file_run content hint).1.take (read_file_run content hint).2) =
    some content
  rw [read_file_run, h1, h2]

/-- Claim C1: writing `d` to `p` via the binary `write_file` overload and
then reading `p` back via `read_file` (binary instantiation) returns
exactly `d`, whenever the write reported success (with a fault-free trace
it always does). -/
theorem write_file_read_file_roundtrip (fs : FS) (p : Path) (d : List Byte)
    (inPlace : Bool) (evs : List WriteEv) (hint : Nat)
    (h : (write_file fs p d inPlace evs).2 = true) :
    read_file (write_file fs p d inPlace evs).1 p hint = some d := by
  rcases hw : write_fd_run d.length evs 0 with ⟨w, out⟩
  cases out with
  | error e =>
    exfalso
    rw [write_file] at h
    simp only [hw] at h
    exact Bool.false_ne_true h
  | ok u =>
    cases u
    have hwlen : w = d.length := write_fd_run_ok_eq d.length evs 0 (Nat.zero_le _) w hw
    have hfile : (write_file fs p d inPlace evs).1 p = some d := by
      rw [write_file]
      simp [hw, setFile, hwlen]
    exact read_file_reads_whole_file _ p d hint hfile

/-- Claim C1 witness: writing `[3, 1, 4]` to path 1 with a fault-free
trace succeeds, and reading it back returns `[3, 1, 4]`. -/
theorem write_file_read_file_roundtrip_witness :
    read_file (write_file fsOne 1 [3, 1, 4] false []).1 1 0 = some [3, 1, 4] :=
  write_file_read_file_roundtrip fsOne 1 [3, 1, 4] false [] 0 rfl

/-- Claim C4 counterexample: with an expected size of 10 (size hint 10),
`read_file` allocates an initial buffer of 1024 bytes, not `10 + 1`
bytes: the code clamps the initial allocation to at least 1024
(`size_hint = (size_hint < 1024) ? 1024 : size_hint + 1`). -/
theorem read_file_initial_buffer_clamped_cex :
    (read_file_initial_buffer [1, 2, 3] 10).length = 1024 ∧ (10 : Nat) + 1 ≠ 1024 := by
  constructor
  · rw [read_file_initial_buffer, List.length_replicate]
    rfl
  · decide

/-- Claim C4 (amended): `read_file` allocates an initial buffer one byte
larger than the expected size when that is at least 1024, and a 1024-byte
buffer otherwise; the buffer grows only by doubling; the loop reads
exactly the file's bytes and the result is truncated to exactly the
number of bytes read. -/
theorem read_file_buffer_growth (fs : FS) (p : Path) (hint : Nat)
    (content : List Byte) (h : fs p = some content) :
    (1024 ≤ (if hint = 0 then content.length else hint) →
      (read_file_initial_buffer content hint).length =
        (if hint = 0 then content.length else hint) + 1) ∧
    ((if hint = 0 then content.length else hint) < 1024 →
      (read_file_initial_buffer content hint).length = 1024) ∧
    (∃ k : Nat, (read_file_run content hint).1.length =
      (read_file_initial_buffer content hint).length * 2 ^ k) ∧
    (read_file_run content hint).2 = content.length ∧
    (read_file_run content hint).1.take (read_file_run content hint).2 = content ∧
    read_file fs p hint = some content := by
  have hinit : 0 < (read_file_initial_buffer content hint).length := by
    rw [read_file_initial_buffer, List.length_replicate, read_file_init_size]
    split <;> split <;> omega
  obtain ⟨h1, h2, k, h3⟩ := readLoop_spec content content.length 0
    (read_file_initial_buffer content hint) 0 rfl rfl (Nat.zero_le _) (Nat.zero_le _)
    hinit (by rw [List.take_zero, List.take_zero])
  refine ⟨?_, ?_, ⟨k, ?_⟩, ?_, ?_, ?_⟩
  · intro hge
    rw [read_file_initial_buffer, List.length_replicate, read_file_init_size,
      if_neg (by omega)]
  · intro hlt
    rw [read_file_initial_buffer, List.length_replicate, read_file_init_size,
      if_pos hlt]
  · rw [read_file_run]
    exact h3
  · rw [read_file_run]
    exact h1
  · rw [read_file_run, h1]
    exact h2
  · exact read_file_reads_whole_file fs p content hint h

/-- Claim C4 amended witness: on a three-byte file with size hint 0 the
loop reads exactly 3 bytes and `read_file` returns the file content. -/
theorem read_file_buffer_growth_witness :
    (read_file_run ([1, 2, 3] : List Byte) 0).2 = ([1, 2, 3] : List Byte).length ∧
    read_file fsOne 0 0 = some [1, 2, 3] :=
  ⟨(read_file_buffer_growth fsOne 0 0 [1, 2, 3] rfl).2.2.2.1,
   (read_file_buffer_growth fsOne 0 0 [1, 2, 3] rfl).2.2.2.2.2⟩

/-- Claim C6: on a readable file of length `L`, with `pos ≤ L` and
`count > 0`, `read_file_part(path, pos, count)` returns exactly the
`min count (L - pos)` bytes of the file starting at position `pos`,
truncated to the bytes actually obtained; a `count` reaching beyond end of
file succeeds and returns only the available bytes. -/
theorem read_file_part_returns_available_bytes (fs : FS) (path : Path)
    (pos count : Nat) (content : List Byte)
    (h : fs path = some content) (hpos : pos ≤ content.length) (hc : 0 < count) :
    read_file_part fs path pos count = some ((content.drop pos).take count) ∧
    ((content.drop pos).take count).length = min count (content.length - pos) := by
  obtain ⟨h1, h2⟩ := readPartLoop_spec content (content.length - (pos + 0)) pos 0
    (List.replicate count 0) count rfl (Nat.zero_le _) (List.length_replicate ..)
    (by rw [List.take_zero, List.take_zero]) (Nat.zero_le _)
  rw [Nat.add_zero] at h1 h2
  constructor
  · rw [read_file_part, if_neg (by omega), h]
    show some ((readPartLoop content pos (List.replicate count 0) 0 count).1.take
      (readPartLoop content pos (List.replicate count 0) 0 count).2) =
      some ((content.drop pos).take count)
    rw [h2]
  · rw [List.length_take, List.length_drop]

/-- Claim C6 witness: on a ten-byte file, `read_file_part` with `pos = 5`
and `count = 3` returns exactly the three bytes at positions 5 to 7. -/
theorem read_file_part_returns_available_bytes_witness :
    read_file_part fsTen 0 5 3 =
      some ((([0, 1, 2, 3, 4, 5, 6, 7, 8, 9] : List Byte).drop 5).take 3) ∧
    ((([0, 1, 2, 3, 4, 5, 6, 7, 8, 9] : List Byte).drop 5).take 3).length =
      min 3 (([0, 1, 2, 3, 4, 5, 6, 7, 8, 9] : List Byte).length - 5) :=
  read_file_part_returns_available_bytes fsTen 0 5 3 [0, 1, 2, 3, 4, 5, 6, 7, 8, 9]
    rfl (by decide) (by decide)

/-- Claim C2: in atomic mode, when reading the source fails partway (after
the source was successfully opened), `copy_file` fails, the destination
path is absent afterwards (it was unlinked up front and the rename never
happened), and the temporary file has been discarded. -/
theorem copy_file_via_tmp_read_failure_leaves_dest_absent (fs : FS)
    (src dest tmp : Path) (evs : List ReadEv) (content : List Byte)
    (b : Nat) (e : Errno)
    (hsrc : fs src = some content)
    (hfail : read_fd_run content evs 0 = (b, Except.error e))
    (htd : tmp ≠ dest) :
    (copy_file fs src dest tmp true evs).1 dest = none ∧
    (copy_file fs src dest tmp true evs).1 tmp = none ∧
    (copy_file fs src dest tmp true evs).2 = false := by
  have hdt : dest ≠ tmp := Ne.symm htd
  rw [copy_file, hsrc]
  simp only [hfail]
  simp [discardTmpFile, unlink, setFile, hdt]

/-- Claim C2 witness: copying the file `[1, 2, 3]` in atomic mode with a
trace that delivers one byte and then fails with `EIO` leaves both the
destination (path 1) and the temporary file (path 2) absent and reports
failure. -/
theorem copy_file_via_tmp_read_failure_leaves_dest_absent_witness :
    (copy_file fsOne 0 1 2 true [ReadEv.ok 0, ReadEv.err Errno.eio]).1 1 = none ∧
    (copy_file fsOne 0 1 2 true [ReadEv.ok 0, ReadEv.err Errno.eio]).1 2 = none ∧
    (copy_file fsOne 0 1 2 true [ReadEv.ok 0, ReadEv.err Errno.eio]).2 = false :=
  copy_file_via_tmp_read_failure_leaves_dest_absent fsOne 0 1 2
    [ReadEv.ok 0, ReadEv.err Errno.eio] [1, 2, 3] 1 Errno.eio rfl rfl (by decide)

end Ccache
